import Mathlib

/-
Verification of the homography core of `p5.projection` (file
`library/p5.projection.js`).  The library computes a planar projective
transform from four point correspondences by solving an 8×8 linear system,
and wraps a pair of such matrices (forward and inverse) in a mapper object.

Numbers are modelled by ℚ: the JS code computes with IEEE doubles, and every
claim under study is about the exact linear algebra the code implements
(the spec, §4.1, calls the solve "exact linear algebra, not iterative
optimization"), so the embedding uses exact arithmetic.
-/

namespace Projection

/-- The 8×8 coefficient matrix `U` built by `projectionMatrix` (source lines
82–111), row for row as in the source. -/
def buildU (inPts outPts : Fin 4 → ℚ × ℚ) : Matrix (Fin 8) (Fin 8) ℚ :=
  let x0 := (inPts 0).1
  let x1 := (inPts 1).1
  let x2 := (inPts 2).1
  let x3 := (inPts 3).1
  let y0 := (inPts 0).2
  let y1 := (inPts 1).2
  let y2 := (inPts 2).2
  let y3 := (inPts 3).2
  let u0 := (outPts 0).1
  let u1 := (outPts 1).1
  let u2 := (outPts 2).1
  let u3 := (outPts 3).1
  let v0 := (outPts 0).2
  let v1 := (outPts 1).2
  let v2 := (outPts 2).2
  let v3 := (outPts 3).2
  Matrix.of
    ![![x0, y0, 1, 0, 0, 0, -x0*u0, -y0*u0],
      ![x1, y1, 1, 0, 0, 0, -x1*u1, -y1*u1],
      ![x2, y2, 1, 0, 0, 0, -x2*u2, -y2*u2],
      ![x3, y3, 1, 0, 0, 0, -x3*u3, -y3*u3],
      ![0, 0, 0, x0, y0, 1, -x0*v0, -y0*v0],
      ![0, 0, 0, x1, y1, 1, -x1*v1, -y1*v1],
      ![0, 0, 0, x2, y2, 1, -x2*v2, -y2*v2],
      ![0, 0, 0, x3, y3, 1, -x3*v3, -y3*v3]]

/-- The right-hand side `b = [u0,u1,u2,u3,v0,v1,v2,v3]` built by
`projectionMatrix` (source line 113). -/
def buildB (outPts : Fin 4 → ℚ × ℚ) : Fin 8 → ℚ :=
  ![(outPts 0).1, (outPts 1).1, (outPts 2).1, (outPts 3).1,
    (outPts 0).2, (outPts 1).2, (outPts 2).2, (outPts 3).2]

/-- Modelled from the spec: `math.lusolve` is supplied by the external mathjs
library and is not part of this repository.  Spec §4.1 describes it as an
exact LU-based direct solve of the square system `U·c = b` that fails with a
SingularSystemError when `U` is singular.  Over ℚ an exact direct solve
succeeds exactly when `det U ≠ 0` and then returns the unique solution, here
written via Cramer's rule; `none` models the thrown SingularSystemError. -/
def lusolve (A : Matrix (Fin 8) (Fin 8) ℚ) (b : Fin 8 → ℚ) : Option (Fin 8 → ℚ) :=
  if A.det = 0 then none else some (fun i => Matrix.cramer A b i / A.det)

/-- Models `m.push(1)` (source line 117): the 8 solved coefficients extended
with the fixed ninth coefficient `c22 = 1`. -/
def pushOne (m : Fin 8 → ℚ) : Fin 9 → ℚ :=
  fun i => if h : (i : ℕ) < 8 then m ⟨i, h⟩ else 1

/-- Source `projectionMatrix(inPts, outPts)` (lines 80–120): build `U` and
`b`, solve, and append `c22 = 1`.  (The `.map((x) => x[0])` in the source
merely flattens mathjs' column-vector result and is absorbed into
`lusolve` returning a plain vector.) -/
def projectionMatrix (inPts outPts : Fin 4 → ℚ × ℚ) : Option (Fin 9 → ℚ) :=
  (lusolve (buildU inPts outPts) (buildB outPts)).map (fun m => pushOne m)

/-- The state of a `ProjectionMatrix` object (source constructor,
lines 9–38). -/
structure Mapper where
  inPts : Fin 4 → ℚ × ℚ
  outPts : Fin 4 → ℚ × ℚ
  name : Option String
  hit : ℤ
  dragging : Bool
  edit : Bool
  mat : Fin 9 → ℚ
  invmat : Fin 9 → ℚ

/-- Models a successful call of `update()` (source lines 74–78): both solves
run on the current point sets and both matrices are replaced.  A
SingularSystemError thrown by either solve aborts the call, modelled by
`none`. -/
def update (st : Mapper) : Option Mapper := do
  let m ← projectionMatrix st.inPts st.outPts
  let mi ← projectionMatrix st.outPts st.inPts
  some { st with mat := m, invmat := mi }

/-- Default `inPts`: a full HD canvas (source lines 12–17). -/
def defaultInPts : Fin 4 → ℚ × ℚ := ![(0, 0), (0, 1080), (1920, 0), (1920, 1080)]

/-- Default `outPts`: a slightly skewed rectangle (source lines 20–25). -/
def defaultOutPts : Fin 4 → ℚ × ℚ :=
  ![(-700, -400), (-650, 300), (600, -150), (500, 450)]

/-- The constructor (source lines 9–38): store the point sets (or the
defaults), initialise the UI fields, and call `update()` to pre-compute both
matrices.  A successful construction is one whose `update()` succeeded. -/
def construct (outPts0 inPts0 : Option (Fin 4 → ℚ × ℚ)) (nm : Option String) :
    Option Mapper :=
  update
    { inPts := inPts0.getD defaultInPts
      outPts := outPts0.getD defaultOutPts
      name := nm
      hit := -1
      dragging := false
      edit := false
      mat := fun _ => 0
      invmat := fun _ => 0 }

/-- The homogeneous-division point mapping of `project()` (source lines
263–271), generalised over the 9-coefficient matrix it reads:
`u/z, v/z` with `u = m0·x + m1·y + m2`, `v = m3·x + m4·y + m5`,
`z = m6·x + m7·y + m8`. -/
def mapPoint (mat : Fin 9 → ℚ) (x y : ℚ) : ℚ × ℚ :=
  let u := mat 0 * x + mat 1 * y + mat 2
  let v := mat 3 * x + mat 4 * y + mat 5
  let z := mat 6 * x + mat 7 * y + mat 8
  (u / z, v / z)

/-- Source `project(x, y)`: the homogeneous-division formula read off the
inverse matrix `invmat`. -/
def project (st : Mapper) (x y : ℚ) : ℚ × ℚ :=
  mapPoint st.invmat x y

/-- The forward point mapping (the spec's `mapForward`): the same formula
read off the forward matrix `mat`. -/
def mapForward (st : Mapper) (x y : ℚ) : ℚ × ℚ :=
  mapPoint st.mat x y

/-- The 16 values `apply()` (source lines 238–242) passes to p5's
`applyMatrix`, in argument order. -/
def applyMatrixArgs (st : Mapper) : Fin 16 → ℚ :=
  ![st.mat 0, st.mat 3, 0, st.mat 6,
    st.mat 1, st.mat 4, 0, st.mat 7,
    0, 0, 1, 0,
    st.mat 2, st.mat 5, 0, st.mat 8]

/-- Three points are collinear: the usual cross-product test vanishes. -/
def Collinear3 (a b c : ℚ × ℚ) : Prop :=
  (b.1 - a.1) * (c.2 - a.2) - (c.1 - a.1) * (b.2 - a.2) = 0

instance (a b c : ℚ × ℚ) : Decidable (Collinear3 a b c) := by
  unfold Collinear3
  infer_instance

/-- The spec's CorrespondenceSet invariant (§3) on one side: no three of the
four points are collinear (this also rules out duplicate points). -/
def NoThreeCollinear (pts : Fin 4 → ℚ × ℚ) : Prop :=
  ∀ i j k : Fin 4, i ≠ j → i ≠ k → j ≠ k → ¬ Collinear3 (pts i) (pts j) (pts k)

instance (pts : Fin 4 → ℚ × ℚ) : Decidable (NoThreeCollinear pts) := by
  unfold NoThreeCollinear
  infer_instance

/-- Nondegeneracy of a correspondence set, following spec §3: no three
source points and no three destination points collinear. -/
def Nondegenerate (inPts outPts : Fin 4 → ℚ × ℚ) : Prop :=
  NoThreeCollinear inPts ∧ NoThreeCollinear outPts

/-- Homogeneous coordinates `(x, y, 1)` of a point. -/
def homog (p : ℚ × ℚ) : Fin 3 → ℚ := ![p.1, p.2, 1]

/-- The 3×3 matrix view of a 9-coefficient projective matrix. -/
def Cmat (m : Fin 9 → ℚ) : Matrix (Fin 3) (Fin 3) ℚ :=
  Matrix.of ![![m 0, m 1, m 2], ![m 3, m 4, m 5], ![m 6, m 7, m 8]]

/-- The homogeneous denominator `z = c20·x + c21·y + c22` at a point. -/
def zden (m : Fin 9 → ℚ) (p : ℚ × ℚ) : ℚ :=
  m 6 * p.1 + m 7 * p.2 + m 8

section VecEval

variable {R : Type*}

/-- Evaluation of an 8-vector literal at index 5. -/
@[simp] theorem vec8_at5 (a0 a1 a2 a3 a4 a5 a6 a7 : R) :
    ![a0, a1, a2, a3, a4, a5, a6, a7] 5 = a5 := rfl

/-- Evaluation of an 8-vector literal at index 6. -/
@[simp] theorem vec8_at6 (a0 a1 a2 a3 a4 a5 a6 a7 : R) :
    ![a0, a1, a2, a3, a4, a5, a6, a7] 6 = a6 := rfl

/-- Evaluation of an 8-vector literal at index 7. -/
@[simp] theorem vec8_at7 (a0 a1 a2 a3 a4 a5 a6 a7 : R) :
    ![a0, a1, a2, a3, a4, a5, a6, a7] 7 = a7 := rfl

end VecEval

section VecEvalMore

variable {R : Type*}

/-- Evaluation of a 9-vector literal at index 5. -/
@[simp] theorem vec9_at5 (a0 a1 a2 a3 a4 a5 a6 a7 a8 : R) :
    ![a0, a1, a2, a3, a4, a5, a6, a7, a8] 5 = a5 := rfl

/-- Evaluation of a 9-vector literal at index 6. -/
@[simp] theorem vec9_at6 (a0 a1 a2 a3 a4 a5 a6 a7 a8 : R) :
    ![a0, a1, a2, a3, a4, a5, a6, a7, a8] 6 = a6 := rfl

/-- Evaluation of a 9-vector literal at index 7. -/
@[simp] theorem vec9_at7 (a0 a1 a2 a3 a4 a5 a6 a7 a8 : R) :
    ![a0, a1, a2, a3, a4, a5, a6, a7, a8] 7 = a7 := rfl

/-- Evaluation of a 9-vector literal at index 8. -/
@[simp] theorem vec9_at8 (a0 a1 a2 a3 a4 a5 a6 a7 a8 : R) :
    ![a0, a1, a2, a3, a4, a5, a6, a7, a8] 8 = a8 := rfl

end VecEvalMore

/-- Evaluation of `pushOne` at index 0. -/
@[simp] theorem pushOne_zero (m : Fin 8 → ℚ) : pushOne m 0 = m 0 := rfl

/-- Evaluation of `pushOne` at index 1. -/
@[simp] theorem pushOne_one (m : Fin 8 → ℚ) : pushOne m 1 = m 1 := rfl

/-- Evaluation of `pushOne` at index 2. -/
@[simp] theorem pushOne_two (m : Fin 8 → ℚ) : pushOne m 2 = m 2 := rfl

/-- Evaluation of `pushOne` at index 3. -/
@[simp] theorem pushOne_three (m : Fin 8 → ℚ) : pushOne m 3 = m 3 := rfl

/-- Evaluation of `pushOne` at index 4. -/
@[simp] theorem pushOne_four (m : Fin 8 → ℚ) : pushOne m 4 = m 4 := rfl

/-- Evaluation of `pushOne` at index 5. -/
@[simp] theorem pushOne_five (m : Fin 8 → ℚ) : pushOne m 5 = m 5 := rfl

/-- Evaluation of `pushOne` at index 6. -/
@[simp] theorem pushOne_six (m : Fin 8 → ℚ) : pushOne m 6 = m 6 := rfl

/-- Evaluation of `pushOne` at index 7. -/
@[simp] theorem pushOne_seven (m : Fin 8 → ℚ) : pushOne m 7 = m 7 := rfl

/-- Evaluation of `pushOne` at index 8: the appended `c22 = 1`. -/
@[simp] theorem pushOne_eight (m : Fin 8 → ℚ) : pushOne m 8 = 1 := rfl

/-- Basic solver fact: a successful `lusolve` output solves the system. -/
theorem lusolve_sound {A : Matrix (Fin 8) (Fin 8) ℚ} {b c : Fin 8 → ℚ}
    (h : lusolve A b = some c) : A.mulVec c = b := by
  unfold lusolve at h
  by_cases hd : A.det = 0
  · simp [hd] at h
  · simp only [hd, if_false, Option.some.injEq] at h
    subst h
    have hc : (fun i => Matrix.cramer A b i / A.det) = A.det⁻¹ • Matrix.cramer A b := by
      funext i
      simp [div_eq_inv_mul, Pi.smul_apply, smul_eq_mul]
    rw [hc, Matrix.mulVec_smul, Matrix.mulVec_cramer, smul_smul,
      inv_mul_cancel₀ hd, one_smul]

/-- Basic solver fact: `lusolve` fails exactly on singular systems. -/
theorem lusolve_eq_none_iff {A : Matrix (Fin 8) (Fin 8) ℚ} {b : Fin 8 → ℚ} :
    lusolve A b = none ↔ A.det = 0 := by
  unfold lusolve
  by_cases hd : A.det = 0 <;> simp [hd]

/-- Basic solver fact: the solution of a nonsingular system is unique. -/
theorem lusolve_unique {A : Matrix (Fin 8) (Fin 8) ℚ} {b c c' : Fin 8 → ℚ}
    (h : lusolve A b = some c) (h' : A.mulVec c' = b) : c' = c := by
  have hd : A.det ≠ 0 := by
    intro hd
    rw [lusolve_eq_none_iff.2 hd] at h
    exact Option.noConfusion h
  have hu : IsUnit A.det := isUnit_iff_ne_zero.2 hd
  have hc : A.mulVec c = b := lusolve_sound h
  calc c' = Matrix.mulVec 1 c' := (Matrix.one_mulVec c').symm
    _ = (A⁻¹ * A).mulVec c' := by rw [Matrix.nonsing_inv_mul A hu]
    _ = A⁻¹.mulVec (A.mulVec c') := (Matrix.mulVec_mulVec c' A⁻¹ A).symm
    _ = A⁻¹.mulVec (A.mulVec c) := by rw [h', hc]
    _ = (A⁻¹ * A).mulVec c := Matrix.mulVec_mulVec c A⁻¹ A
    _ = Matrix.mulVec 1 c := by rw [Matrix.nonsing_inv_mul A hu]
    _ = c := Matrix.one_mulVec c

/-- Basic solver fact: if the kernel of `A` is trivial and `c` solves the
system, `lusolve` succeeds and returns exactly `c`. -/
theorem lusolve_eq_some {A : Matrix (Fin 8) (Fin 8) ℚ} {b c : Fin 8 → ℚ}
    (hker : ∀ v, A.mulVec v = 0 → v = 0) (hc : A.mulVec c = b) :
    lusolve A b = some c := by
  have hd : A.det ≠ 0 := by
    intro hd
    obtain ⟨v, hv0, hv⟩ := Matrix.exists_mulVec_eq_zero_iff.2 hd
    exact hv0 (hker v hv)
  unfold lusolve
  simp only [hd, if_false, Option.some.injEq]
  have hsol : lusolve A b = some (fun i => Matrix.cramer A b i / A.det) := by
    unfold lusolve
    simp [hd]
  exact (lusolve_unique hsol hc).symm

/-- The rearranged projective equations satisfied by any successful solver
output: the eight rows of `U·c = b` say exactly that for every correspondence
`(xi, yi) → (ui, vi)` the cleared-denominator equations
`c00·xi + c01·yi + c02 = zi·ui` and `c10·xi + c11·yi + c12 = zi·vi` hold,
where `zi = c20·xi + c21·yi + 1`; moreover the appended `c22` is 1. -/
theorem solve_eqs {inPts outPts : Fin 4 → ℚ × ℚ} {m : Fin 9 → ℚ}
    (h : projectionMatrix inPts outPts = some m) :
    m 8 = 1 ∧
    ∀ i : Fin 4,
      m 0 * (inPts i).1 + m 1 * (inPts i).2 + m 2 = zden m (inPts i) * (outPts i).1 ∧
      m 3 * (inPts i).1 + m 4 * (inPts i).2 + m 5 = zden m (inPts i) * (outPts i).2 := by
  unfold projectionMatrix at h
  obtain ⟨m0, hl, hm⟩ := Option.map_eq_some'.1 h
  subst hm
  have hU := lusolve_sound hl
  have h0 := congrFun hU 0
  have h1 := congrFun hU 1
  have h2 := congrFun hU 2
  have h3 := congrFun hU 3
  have h4 := congrFun hU 4
  have h5 := congrFun hU 5
  have h6 := congrFun hU 6
  have h7 := congrFun hU 7
  simp only [buildU, buildB, Matrix.mulVec, Matrix.dotProduct, Fin.sum_univ_eight,
    Matrix.of_apply, Matrix.cons_val_zero, Matrix.cons_val_one, Matrix.head_cons,
    Matrix.cons_val_two, Matrix.tail_cons, Matrix.cons_val_three, Matrix.cons_val_four,
    vec8_at5, vec8_at6, vec8_at7] at h0 h1 h2 h3 h4 h5 h6 h7
  refine ⟨rfl, ?_⟩
  intro i
  simp only [zden, pushOne_zero, pushOne_one, pushOne_two, pushOne_three, pushOne_four,
    pushOne_five, pushOne_six, pushOne_seven, pushOne_eight]
  have hcase : ∀ j : Fin 4, j = 0 ∨ j = 1 ∨ j = 2 ∨ j = 3 := by decide
  rcases hcase i with rfl | rfl | rfl | rfl
  · exact ⟨by linear_combination h0, by linear_combination h4⟩
  · exact ⟨by linear_combination h1, by linear_combination h5⟩
  · exact ⟨by linear_combination h2, by linear_combination h6⟩
  · exact ⟨by linear_combination h3, by linear_combination h7⟩

/-- The determinant of the homogeneous matrix of three points is the
cross-product collinearity test. -/
theorem det_homog (a b c : ℚ × ℚ) :
    (Matrix.of ![homog a, homog b, homog c]).det
      = (b.1 - a.1) * (c.2 - a.2) - (c.1 - a.1) * (b.2 - a.2) := by
  simp [Matrix.det_fin_three, homog, Matrix.cons_val_zero, Matrix.cons_val_one,
    Matrix.head_cons, Matrix.cons_val_two, Matrix.tail_cons, Matrix.vecHead, Matrix.vecTail]
  ring

/-- Nondegeneracy rephrased: the homogeneous matrix of any three of the four
points has nonzero determinant. -/
theorem noThreeCollinear_det {pts : Fin 4 → ℚ × ℚ} (h : NoThreeCollinear pts) :
    ∀ i j k : Fin 4, i ≠ j → i ≠ k → j ≠ k →
      (Matrix.of ![homog (pts i), homog (pts j), homog (pts k)]).det ≠ 0 := by
  intro i j k hij hik hjk hz
  exact h i j k hij hik hjk (by rw [Collinear3, ← det_homog, hz])

/-- A 3×3 matrix that kills three affinely independent vectors is zero. -/
theorem eq_zero_of_ker3 {C : Matrix (Fin 3) (Fin 3) ℚ} {a b c : Fin 3 → ℚ}
    (hd : (Matrix.of ![a, b, c]).det ≠ 0)
    (ha : C.mulVec a = 0) (hb : C.mulVec b = 0) (hc : C.mulVec c = 0) : C = 0 := by
  set P : Matrix (Fin 3) (Fin 3) ℚ := Matrix.of ![a, b, c] with hP
  have hmul : C * P.transpose = 0 := by
    ext r s
    have hPs : C.mulVec (P s) r = 0 := by
      have hcase : ∀ t : Fin 3, t = 0 ∨ t = 1 ∨ t = 2 := by decide
      rcases hcase s with rfl | rfl | rfl
      · rw [show P 0 = a from rfl, ha]
        rfl
      · rw [show P 1 = b from rfl, hb]
        rfl
      · rw [show P 2 = c from rfl, hc]
        rfl
    calc (C * P.transpose) r s
        = C.mulVec (P s) r := by
          rw [Matrix.mul_apply]
          rfl
      _ = 0 := hPs
  have hdT : IsUnit P.transpose.det := by
    rw [Matrix.det_transpose]
    exact isUnit_iff_ne_zero.2 hd
  calc C = C * (P.transpose * P.transpose⁻¹) := by
        rw [Matrix.mul_nonsing_inv _ hdT, Matrix.mul_one]
    _ = C * P.transpose * P.transpose⁻¹ := by rw [Matrix.mul_assoc]
    _ = 0 := by rw [hmul, Matrix.zero_mul]

/-- Any vector is a linear combination of three affinely independent
vectors. -/
theorem exists_combo {a b c : Fin 3 → ℚ} (v : Fin 3 → ℚ)
    (hd : (Matrix.of ![a, b, c]).det ≠ 0) :
    ∃ al be ga : ℚ, ∀ r, v r = al * a r + be * b r + ga * c r := by
  set P : Matrix (Fin 3) (Fin 3) ℚ := (Matrix.of ![a, b, c]).transpose with hP
  have hdT : IsUnit P.det := by
    rw [hP, Matrix.det_transpose]
    exact isUnit_iff_ne_zero.2 hd
  obtain ⟨w, hw⟩ : ∃ w : Fin 3 → ℚ, P.mulVec w = v := by
    refine ⟨P⁻¹.mulVec v, ?_⟩
    rw [Matrix.mulVec_mulVec, Matrix.mul_nonsing_inv _ hdT, Matrix.one_mulVec]
  refine ⟨w 0, w 1, w 2, fun r => ?_⟩
  have hr := congrFun hw r
  simp only [Matrix.mulVec, Matrix.dotProduct, Fin.sum_univ_three, hP,
    Matrix.transpose_apply, Matrix.of_apply, Matrix.cons_val_zero, Matrix.cons_val_one,
    Matrix.head_cons, Matrix.cons_val_two, Matrix.tail_cons] at hr
  linear_combination -hr

/-- The matrix form of `solve_eqs`: a successful solver output, read as a 3×3
matrix, maps the homogeneous source points to the destination points scaled
by their homogeneous denominators. -/
theorem solve_mulVec {inPts outPts : Fin 4 → ℚ × ℚ} {m : Fin 9 → ℚ}
    (h : projectionMatrix inPts outPts = some m) :
    ∀ i, (Cmat m).mulVec (homog (inPts i)) = zden m (inPts i) • homog (outPts i) := by
  obtain ⟨h8, heqs⟩ := solve_eqs h
  intro i
  obtain ⟨hu, hv⟩ := heqs i
  funext r
  have hcase : ∀ t : Fin 3, t = 0 ∨ t = 1 ∨ t = 2 := by decide
  rcases hcase r with rfl | rfl | rfl
  all_goals simp only [Matrix.mulVec, Matrix.dotProduct, Fin.sum_univ_three, Cmat, homog,
    Matrix.of_apply, Matrix.cons_val_zero, Matrix.cons_val_one, Matrix.head_cons,
    Matrix.cons_val_two, Matrix.tail_cons, Pi.smul_apply, smul_eq_mul]
  · linear_combination hu
  · linear_combination hv
  · simp only [zden]
    ring

/-- The key geometric fact: if a nonzero projective matrix (bottom-right
entry 1) maps four homogeneous points, no three of which are collinear, to
scalar multiples of four homogeneous points, no three of which are
collinear, then none of the scalar factors is zero. -/
theorem zden_ne_zero
    {p q : Fin 4 → Fin 3 → ℚ} {z : Fin 4 → ℚ} {C : Matrix (Fin 3) (Fin 3) ℚ}
    (hp2 : ∀ i, p i 2 = 1) (hq2 : ∀ i, q i 2 = 1)
    (hpd : ∀ i j k : Fin 4, i ≠ j → i ≠ k → j ≠ k → (Matrix.of ![p i, p j, p k]).det ≠ 0)
    (hqd : ∀ i j k : Fin 4, i ≠ j → i ≠ k → j ≠ k → (Matrix.of ![q i, q j, q k]).det ≠ 0)
    (hC : C 2 2 = 1)
    (hrel : ∀ i, C.mulVec (p i) = z i • q i) :
    ∀ i, z i ≠ 0 := by
  intro i hzi
  have hker : ∀ a : Fin 4, z a = 0 → C.mulVec (p a) = 0 := by
    intro a hza
    rw [hrel a, hza, zero_smul]
  by_cases hex : ∃ j, j ≠ i ∧ z j = 0
  · obtain ⟨j, hji, hzj⟩ := hex
    have hpick : ∀ a b : Fin 4, a ≠ b → ∃ c d : Fin 4,
        c ≠ d ∧ c ≠ a ∧ c ≠ b ∧ d ≠ a ∧ d ≠ b := by decide
    obtain ⟨k, l, hkl, hki, hkj, hli, hlj⟩ := hpick i j (Ne.symm hji)
    by_cases hzk : z k = 0
    · have hC0 : C = 0 :=
        eq_zero_of_ker3 (hpd i j k (Ne.symm hji) (Ne.symm hki) (Ne.symm hkj))
          (hker i hzi) (hker j hzj) (hker k hzk)
      rw [hC0] at hC
      simp at hC
    · by_cases hzl : z l = 0
      · have hC0 : C = 0 :=
          eq_zero_of_ker3 (hpd i j l (Ne.symm hji) (Ne.symm hli) (Ne.symm hlj))
            (hker i hzi) (hker j hzj) (hker l hzl)
        rw [hC0] at hC
        simp at hC
      · obtain ⟨al, be, ga, hcombo⟩ :=
          exists_combo (p l) (hpd i j k (Ne.symm hji) (Ne.symm hki) (Ne.symm hkj))
        have hv : p l = al • p i + be • p j + ga • p k := by
          funext r
          simp [Pi.add_apply, Pi.smul_apply, smul_eq_mul, hcombo r]
        have hCl : C.mulVec (p l) = (ga * z k) • q k := by
          rw [hv, Matrix.mulVec_add, Matrix.mulVec_add, Matrix.mulVec_smul,
            Matrix.mulVec_smul, Matrix.mulVec_smul, hker i hzi, hker j hzj, hrel k]
          simp [smul_smul]
        have heq : z l • q l = (ga * z k) • q k := by
          rw [← hrel l, hCl]
        have h2 : z l = ga * z k := by
          have h2' := congrFun heq 2
          simpa [Pi.smul_apply, smul_eq_mul, hq2 k, hq2 l] using h2'
        have hql : q l = q k := by
          funext r
          have hr := congrFun heq r
          simp only [Pi.smul_apply, smul_eq_mul] at hr
          rw [← h2] at hr
          exact mul_left_cancel₀ hzl hr
        have hdet0 : (Matrix.of ![q i, q k, q l]).det = 0 := by
          apply Matrix.det_zero_of_row_eq (show (1 : Fin 3) ≠ 2 by decide)
          rw [show (Matrix.of ![q i, q k, q l]) 1 = q k from rfl,
            show (Matrix.of ![q i, q k, q l]) 2 = q l from rfl, hql]
        exact hqd i k l (Ne.symm hki) (Ne.symm hli) hkl hdet0
  · push_neg at hex
    have hpick3 : ∀ a : Fin 4, ∃ b c d : Fin 4,
        b ≠ a ∧ c ≠ a ∧ d ≠ a ∧ b ≠ c ∧ b ≠ d ∧ c ≠ d := by decide
    obtain ⟨j, k, l, hja, hka, hla, hjk, hjl, hkl⟩ := hpick3 i
    have hpne : p i ≠ 0 := by
      intro h0
      have h1 := congrFun h0 2
      rw [hp2 i] at h1
      simp at h1
    have hdetC : C.det = 0 := Matrix.exists_mulVec_eq_zero_iff.1 ⟨p i, hpne, hker i hzi⟩
    obtain ⟨w, hw0, hwC⟩ := Matrix.exists_vecMul_eq_zero_iff.2 hdetC
    have hkey : ∀ a : Fin 4, a ≠ i → Matrix.dotProduct (q a) w = 0 := by
      intro a hai
      have h1 : Matrix.dotProduct w (C.mulVec (p a)) = 0 := by
        rw [Matrix.dotProduct_mulVec, hwC, Matrix.zero_dotProduct]
      rw [hrel a, Matrix.dotProduct_smul, smul_eq_mul] at h1
      rcases mul_eq_zero.1 h1 with hza | hdp
      · exact absurd hza (hex a hai)
      · rw [Matrix.dotProduct_comm]
        exact hdp
    have hQ : (Matrix.of ![q j, q k, q l]).mulVec w = 0 := by
      funext r
      have hcase : ∀ t : Fin 3, t = 0 ∨ t = 1 ∨ t = 2 := by decide
      rcases hcase r with rfl | rfl | rfl
      · exact hkey j hja
      · exact hkey k hka
      · exact hkey l hla
    have hdet0 := Matrix.exists_mulVec_eq_zero_iff.1 ⟨w, hw0, hQ⟩
    exact hqd j k l hjk hjl hkl hdet0

/-- For a nondegenerate correspondence set, every homogeneous denominator of
a successful solve is nonzero at the four source points. -/
theorem solve_zden_ne_zero {inPts outPts : Fin 4 → ℚ × ℚ} {m : Fin 9 → ℚ}
    (hnd : Nondegenerate inPts outPts)
    (h : projectionMatrix inPts outPts = some m) :
    ∀ i, zden m (inPts i) ≠ 0 := by
  have h8 := (solve_eqs h).1
  have hrel := solve_mulVec h
  exact zden_ne_zero (fun i => rfl) (fun i => rfl)
    (noThreeCollinear_det hnd.1) (noThreeCollinear_det hnd.2)
    (by rw [show Cmat m 2 2 = m 8 from rfl, h8]) hrel

/-- C1 (exact interpolation): for every nondegenerate correspondence set, a
matrix returned by `projectionMatrix(inPts, outPts)` maps each source point
exactly onto its destination point under the homogeneous-division formula. -/
theorem exact_interpolation {inPts outPts : Fin 4 → ℚ × ℚ} {m : Fin 9 → ℚ}
    (hnd : Nondegenerate inPts outPts)
    (h : projectionMatrix inPts outPts = some m) :
    ∀ i : Fin 4, mapPoint m (inPts i).1 (inPts i).2 = outPts i := by
  obtain ⟨h8, heqs⟩ := solve_eqs h
  have hz := solve_zden_ne_zero hnd h
  intro i
  obtain ⟨hu, hv⟩ := heqs i
  have hzi := hz i
  simp only [mapPoint]
  rw [Prod.ext_iff]
  constructor
  · rw [show m 6 * (inPts i).1 + m 7 * (inPts i).2 + m 8 = zden m (inPts i) from rfl, hu]
    exact mul_div_cancel_left₀ _ hzi
  · rw [show m 6 * (inPts i).1 + m 7 * (inPts i).2 + m 8 = zden m (inPts i) from rfl, hv]
    exact mul_div_cancel_left₀ _ hzi

/-- A concrete nondegenerate example: the corners of the unit square. -/
def sqPts : Fin 4 → ℚ × ℚ := ![(0, 0), (0, 1), (1, 0), (1, 1)]

/-- The identity 9-coefficient projective matrix. -/
def idMat9 : Fin 9 → ℚ := ![1, 0, 0, 0, 1, 0, 0, 0, 1]

/-- The 8-coefficient part of the identity projective matrix. -/
def idMat8 : Fin 8 → ℚ := ![1, 0, 0, 0, 1, 0, 0, 0]

/-- No three corners of the unit square are collinear. -/
theorem sq_noThree : NoThreeCollinear sqPts := by
  intro i j k hij hik hjk
  have hcase : ∀ t : Fin 4, t = 0 ∨ t = 1 ∨ t = 2 ∨ t = 3 := by decide
  rcases hcase i with rfl | rfl | rfl | rfl <;>
    rcases hcase j with rfl | rfl | rfl | rfl <;>
    rcases hcase k with rfl | rfl | rfl | rfl <;>
    first
      | exact absurd rfl hij
      | exact absurd rfl hik
      | exact absurd rfl hjk
      | norm_num [Collinear3, sqPts]

/-- The unit-square-to-itself correspondence set is nondegenerate. -/
theorem sq_nondeg : Nondegenerate sqPts sqPts :=
  ⟨sq_noThree, sq_noThree⟩

/-- On the unit-square-to-itself correspondence the solver succeeds and
returns the identity matrix. -/
theorem solve_sq : projectionMatrix sqPts sqPts = some idMat9 := by
  have hker : ∀ v, (buildU sqPts sqPts).mulVec v = 0 → v = 0 := by
    intro v hv
    have h0 := congrFun hv 0
    have h1 := congrFun hv 1
    have h2 := congrFun hv 2
    have h3 := congrFun hv 3
    have h4 := congrFun hv 4
    have h5 := congrFun hv 5
    have h6 := congrFun hv 6
    have h7 := congrFun hv 7
    simp only [buildU, Matrix.mulVec, Matrix.dotProduct, Fin.sum_univ_eight,
      Matrix.of_apply, Matrix.cons_val_zero, Matrix.cons_val_one, Matrix.head_cons,
      Matrix.cons_val_two, Matrix.tail_cons, Matrix.cons_val_three, Matrix.cons_val_four,
      vec8_at5, vec8_at6, vec8_at7, Pi.zero_apply] at h0 h1 h2 h3 h4 h5 h6 h7
    norm_num [sqPts] at h0 h1 h2 h3 h4 h5 h6 h7
    funext i
    have hcase : ∀ t : Fin 8, t = 0 ∨ t = 1 ∨ t = 2 ∨ t = 3 ∨ t = 4 ∨ t = 5 ∨ t = 6 ∨ t = 7 := by
      decide
    rcases hcase i with rfl | rfl | rfl | rfl | rfl | rfl | rfl | rfl <;>
      simp only [Pi.zero_apply] <;> linarith
  have hsol : (buildU sqPts sqPts).mulVec idMat8 = buildB sqPts := by
    funext r
    have hcase : ∀ t : Fin 8, t = 0 ∨ t = 1 ∨ t = 2 ∨ t = 3 ∨ t = 4 ∨ t = 5 ∨ t = 6 ∨ t = 7 := by
      decide
    rcases hcase r with rfl | rfl | rfl | rfl | rfl | rfl | rfl | rfl <;>
      · simp only [buildU, buildB, Matrix.mulVec, Matrix.dotProduct, Fin.sum_univ_eight,
          Matrix.of_apply, Matrix.cons_val_zero, Matrix.cons_val_one, Matrix.head_cons,
          Matrix.cons_val_two, Matrix.tail_cons, Matrix.cons_val_three, Matrix.cons_val_four,
          vec8_at5, vec8_at6, vec8_at7]
        norm_num [sqPts, idMat8]
  unfold projectionMatrix
  rw [lusolve_eq_some hker hsol, Option.map_some']
  exact congrArg some (by decide)

/-- Witness for C1: on the unit-square example the solver returns the
identity matrix and the fourth correspondence is reproduced exactly. -/
theorem exact_interpolation_witness :
    mapPoint idMat9 (sqPts 3).1 (sqPts 3).2 = sqPts 3 :=
  exact_interpolation sq_nondeg solve_sq 3

/-- A concrete mapper whose point sets are the unit square and whose two
matrices are the identity (consistent with `solve_sq`). -/
def sqMapper : Mapper where
  inPts := sqPts
  outPts := sqPts
  name := none
  hit := -1
  dragging := false
  edit := false
  mat := idMat9
  invmat := idMat9

/-- A successful concrete `update()`: on the unit-square mapper both solves
return the identity matrix, reproducing the state. -/
theorem update_sq : update sqMapper = some sqMapper := by
  unfold update
  rw [show sqMapper.inPts = sqPts from rfl, show sqMapper.outPts = sqPts from rfl, solve_sq]
  rfl

/-- C6 (export correctness): the 16 values `apply()` passes to the rendering
API are exactly the forward matrix coefficients in the column-major 4×4
layout `[c00,c10,0,c20, c01,c11,0,c21, 0,0,1,0, c02,c12,0,c22]`, i.e.
`mat[0],mat[3],0,mat[6], mat[1],mat[4],0,mat[7], 0,0,1,0,
mat[2],mat[5],0,mat[8]`. -/
theorem apply_export_layout (st : Mapper)
    (c00 c01 c02 c10 c11 c12 c20 c21 c22 : ℚ)
    (h : st.mat = ![c00, c01, c02, c10, c11, c12, c20, c21, c22]) :
    applyMatrixArgs st =
      ![c00, c10, 0, c20, c01, c11, 0, c21, 0, 0, 1, 0, c02, c12, 0, c22] := by
  rw [show applyMatrixArgs st = ![st.mat 0, st.mat 3, 0, st.mat 6, st.mat 1, st.mat 4, 0,
    st.mat 7, 0, 0, 1, 0, st.mat 2, st.mat 5, 0, st.mat 8] from rfl, h]
  rfl

/-- Witness for C6: the identity matrix is exported as the 4×4 identity. -/
theorem apply_export_layout_witness :
    applyMatrixArgs sqMapper =
      ![1, 0, 0, 0, 0, 1, 0, 0, 0, 0, 1, 0, 0, 0, 0, 1] :=
  apply_export_layout sqMapper 1 0 0 0 1 0 0 0 1 rfl

/-- C7 (inverse point mapping formula): `project(x, y)` returns
`(u/z, v/z)` with `u = c00·x + c01·y + c02`, `v = c10·x + c11·y + c12` and
`z = c20·x + c21·y + 1`, the coefficients read from the inverse matrix; the
denominator has the form `c20·x + c21·y + 1` because the solver always
appends `c22 = 1` as `mat[8]`. -/
theorem project_formula {outPts inPts : Fin 4 → ℚ × ℚ} {mi : Fin 9 → ℚ}
    (h : projectionMatrix outPts inPts = some mi) (st : Mapper)
    (hst : st.invmat = mi) (x y : ℚ) :
    project st x y =
      ((mi 0 * x + mi 1 * y + mi 2) / (mi 6 * x + mi 7 * y + 1),
       (mi 3 * x + mi 4 * y + mi 5) / (mi 6 * x + mi 7 * y + 1)) := by
  have h8 := (solve_eqs h).1
  simp only [project, mapPoint, hst, h8]

/-- Witness for C7: on the unit-square mapper the screen point (2, 3) is
projected through the identity inverse matrix. -/
theorem project_formula_witness : project sqMapper 2 3 = (2, 3) := by
  rw [project_formula solve_sq sqMapper rfl 2 3]
  norm_num [idMat9]

/-- C9 (determinism): the solver is a pure function of its two point-set
arguments; two runs on equal inputs return equal results.  (In this
embedding the solver is a mathematical function of exactly these arguments,
which also reflects that the JS code reads and mutates no other state.) -/
theorem projectionMatrix_deterministic (a b a2 b2 : Fin 4 → ℚ × ℚ)
    (h1 : a = a2) (h2 : b = b2) :
    projectionMatrix a b = projectionMatrix a2 b2 := by
  rw [h1, h2]

/-- Witness for C9: two runs on the unit-square input agree. -/
theorem projectionMatrix_deterministic_witness :
    projectionMatrix sqPts sqPts = projectionMatrix sqPts sqPts :=
  projectionMatrix_deterministic sqPts sqPts sqPts sqPts rfl rfl

/-- C10 (frame effect of `update()`): a successful `update()` changes only
`mat` and `invmat`; the point sets and all other fields are unchanged. -/
theorem update_frame {st st2 : Mapper} (h : update st = some st2) :
    st2.inPts = st.inPts ∧ st2.outPts = st.outPts ∧ st2.name = st.name ∧
      st2.hit = st.hit ∧ st2.dragging = st.dragging ∧ st2.edit = st.edit := by
  unfold update at h
  rcases hm1 : projectionMatrix st.inPts st.outPts with _ | m
  · rw [hm1] at h
    exact Option.noConfusion h
  · rw [hm1] at h
    rcases hm2 : projectionMatrix st.outPts st.inPts with _ | mi
    · rw [hm2] at h
      exact Option.noConfusion h
    · rw [hm2] at h
      have h2 : { st with mat := m, invmat := mi } = st2 := Option.some.inj h
      subst h2
      exact ⟨rfl, rfl, rfl, rfl, rfl, rfl⟩

/-- Witness for C10: the concrete successful update on the unit-square
mapper leaves all non-matrix fields unchanged. -/
theorem update_frame_witness :
    sqMapper.inPts = sqMapper.inPts ∧ sqMapper.outPts = sqMapper.outPts ∧
      sqMapper.name = sqMapper.name ∧ sqMapper.hit = sqMapper.hit ∧
      sqMapper.dragging = sqMapper.dragging ∧ sqMapper.edit = sqMapper.edit :=
  update_frame update_sq

/-- C8 (consistency invariant): after a successful construction and after
every successful `update()`, the forward matrix is the solver's result on
`(inPts, outPts)` and the inverse matrix is the solver's result on
`(outPts, inPts)`, both for the state's current point sets; both matrices
are replaced together by the same call. -/
theorem matrices_consistent :
    (∀ st st2 : Mapper, update st = some st2 →
      projectionMatrix st2.inPts st2.outPts = some st2.mat ∧
        projectionMatrix st2.outPts st2.inPts = some st2.invmat) ∧
    (∀ (outPts0 inPts0 : Option (Fin 4 → ℚ × ℚ)) (nm : Option String) (st : Mapper),
      construct outPts0 inPts0 nm = some st →
      projectionMatrix st.inPts st.outPts = some st.mat ∧
        projectionMatrix st.outPts st.inPts = some st.invmat) := by
  have hupd : ∀ st st2 : Mapper, update st = some st2 →
      projectionMatrix st2.inPts st2.outPts = some st2.mat ∧
        projectionMatrix st2.outPts st2.inPts = some st2.invmat := by
    intro st st2 h
    unfold update at h
    rcases hm1 : projectionMatrix st.inPts st.outPts with _ | m
    · rw [hm1] at h
      exact Option.noConfusion h
    · rw [hm1] at h
      rcases hm2 : projectionMatrix st.outPts st.inPts with _ | mi
      · rw [hm2] at h
        exact Option.noConfusion h
      · rw [hm2] at h
        have h2 : { st with mat := m, invmat := mi } = st2 := Option.some.inj h
        subst h2
        exact ⟨hm1, hm2⟩
  exact ⟨hupd, fun outPts0 inPts0 nm st h => hupd _ st h⟩

/-- Witness for C8: the concrete successful update on the unit-square
mapper leaves both matrices consistent with its point sets. -/
theorem matrices_consistent_witness :
    projectionMatrix sqMapper.inPts sqMapper.outPts = some sqMapper.mat ∧
      projectionMatrix sqMapper.outPts sqMapper.inPts = some sqMapper.invmat :=
  matrices_consistent.1 sqMapper sqMapper update_sq

/-- C3 (degenerate rejection): whenever the 8×8 system `U` is singular, the
solve fails with a SingularSystemError (modelled by `none`), so the caller
never receives a matrix — in particular no partially-computed or
NaN/Inf-filled matrix. -/
theorem singular_rejected {inPts outPts : Fin 4 → ℚ × ℚ}
    (h : (buildU inPts outPts).det = 0) :
    projectionMatrix inPts outPts = none := by
  unfold projectionMatrix
  rw [lusolve_eq_none_iff.2 h]
  rfl

/-- The spec's degenerate example: three of the four source points collinear
on the x-axis. -/
def colPts : Fin 4 → ℚ × ℚ := ![(0, 0), (10, 0), (20, 0), (5, 5)]

/-- A nonzero kernel vector of the coefficient matrix built from the
collinear example (any destination quadrilateral): it represents the rank-1
projective matrix `q3 ⊗ (0,1,0)` supported on the line through the three
collinear source points. -/
def colKer : Fin 8 → ℚ := ![0, 1, 0, 0, 1, 0, 0, 1]

/-- The coefficient matrix of the collinear example is singular. -/
theorem colU_det : (buildU colPts sqPts).det = 0 := by
  apply Matrix.exists_mulVec_eq_zero_iff.1
  refine ⟨colKer, ?_, ?_⟩
  · intro h0
    have h7 := congrFun h0 7
    norm_num [colKer] at h7
  · funext r
    have hcase : ∀ t : Fin 8, t = 0 ∨ t = 1 ∨ t = 2 ∨ t = 3 ∨ t = 4 ∨ t = 5 ∨ t = 6 ∨ t = 7 := by
      decide
    rcases hcase r with rfl | rfl | rfl | rfl | rfl | rfl | rfl | rfl <;>
      · simp only [buildU, Matrix.mulVec, Matrix.dotProduct, Fin.sum_univ_eight,
          Matrix.of_apply, Matrix.cons_val_zero, Matrix.cons_val_one, Matrix.head_cons,
          Matrix.cons_val_two, Matrix.tail_cons, Matrix.cons_val_three, Matrix.cons_val_four,
          vec8_at5, vec8_at6, vec8_at7, Pi.zero_apply]
        norm_num [colPts, sqPts, colKer]

/-- Witness for C3: on the spec's example (0,0),(10,0),(20,0),(5,5) the
solve returns no matrix. -/
theorem singular_rejected_witness : projectionMatrix colPts sqPts = none :=
  singular_rejected colU_det

/-- C2 (linear-system construction): the solver builds exactly the claimed
8×8 matrix `U` (rows 0–3 `[xi, yi, 1, 0, 0, 0, -xi·ui, -yi·ui]`, rows 4–7
`[0, 0, 0, xi, yi, 1, -xi·vi, -yi·vi]`) and right-hand side
`b = [u0,u1,u2,u3,v0,v1,v2,v3]`, and the returned coefficients `c00..c21`
are the exact (unique) solution of `U·c = b`. -/
theorem solver_system {inPts outPts : Fin 4 → ℚ × ℚ} {m : Fin 9 → ℚ}
    (h : projectionMatrix inPts outPts = some m) :
    buildU inPts outPts = Matrix.of
      ![![(inPts 0).1, (inPts 0).2, 1, 0, 0, 0,
          -(inPts 0).1*(outPts 0).1, -(inPts 0).2*(outPts 0).1],
        ![(inPts 1).1, (inPts 1).2, 1, 0, 0, 0,
          -(inPts 1).1*(outPts 1).1, -(inPts 1).2*(outPts 1).1],
        ![(inPts 2).1, (inPts 2).2, 1, 0, 0, 0,
          -(inPts 2).1*(outPts 2).1, -(inPts 2).2*(outPts 2).1],
        ![(inPts 3).1, (inPts 3).2, 1, 0, 0, 0,
          -(inPts 3).1*(outPts 3).1, -(inPts 3).2*(outPts 3).1],
        ![0, 0, 0, (inPts 0).1, (inPts 0).2, 1,
          -(inPts 0).1*(outPts 0).2, -(inPts 0).2*(outPts 0).2],
        ![0, 0, 0, (inPts 1).1, (inPts 1).2, 1,
          -(inPts 1).1*(outPts 1).2, -(inPts 1).2*(outPts 1).2],
        ![0, 0, 0, (inPts 2).1, (inPts 2).2, 1,
          -(inPts 2).1*(outPts 2).2, -(inPts 2).2*(outPts 2).2],
        ![0, 0, 0, (inPts 3).1, (inPts 3).2, 1,
          -(inPts 3).1*(outPts 3).2, -(inPts 3).2*(outPts 3).2]] ∧
    buildB outPts = ![(outPts 0).1, (outPts 1).1, (outPts 2).1, (outPts 3).1,
      (outPts 0).2, (outPts 1).2, (outPts 2).2, (outPts 3).2] ∧
    (buildU inPts outPts).mulVec ![m 0, m 1, m 2, m 3, m 4, m 5, m 6, m 7]
      = buildB outPts ∧
    ∀ c : Fin 8 → ℚ, (buildU inPts outPts).mulVec c = buildB outPts →
      c = ![m 0, m 1, m 2, m 3, m 4, m 5, m 6, m 7] := by
  obtain ⟨m0, hl, hm⟩ := Option.map_eq_some'.1 h
  subst hm
  have hv : ![pushOne m0 0, pushOne m0 1, pushOne m0 2, pushOne m0 3, pushOne m0 4,
      pushOne m0 5, pushOne m0 6, pushOne m0 7] = m0 := by
    funext i
    have hcase : ∀ t : Fin 8, t = 0 ∨ t = 1 ∨ t = 2 ∨ t = 3 ∨ t = 4 ∨ t = 5 ∨ t = 6 ∨ t = 7 := by
      decide
    rcases hcase i with rfl | rfl | rfl | rfl | rfl | rfl | rfl | rfl <;> rfl
  refine ⟨rfl, rfl, ?_, ?_⟩
  · rw [hv]
    exact lusolve_sound hl
  · intro c hc
    rw [hv]
    exact lusolve_unique hl hc

/-- Witness for C2: on the unit-square example the returned coefficients
solve the constructed system. -/
theorem solver_system_witness :
    (buildU sqPts sqPts).mulVec
        ![idMat9 0, idMat9 1, idMat9 2, idMat9 3, idMat9 4, idMat9 5, idMat9 6, idMat9 7]
      = buildB sqPts :=
  (solver_system solve_sq).2.2.1

/-- A 3×3 matrix having four eigenvectors in general position (no three in a
common plane through the origin) is a scalar multiple of the identity. -/
theorem eq_smul_one_of_eigen {p : Fin 4 → Fin 3 → ℚ}
    (hpd : ∀ i j k : Fin 4, i ≠ j → i ≠ k → j ≠ k → (Matrix.of ![p i, p j, p k]).det ≠ 0)
    {D : Matrix (Fin 3) (Fin 3) ℚ} {lam : Fin 4 → ℚ}
    (h : ∀ i, D.mulVec (p i) = lam i • p i) :
    D = lam 0 • 1 := by
  obtain ⟨al, be, ga, hcombo⟩ :=
    exists_combo (p 3) (hpd 0 1 2 (by decide) (by decide) (by decide))
  have hal : al ≠ 0 := by
    intro h0
    apply hpd 1 2 3 (by decide) (by decide) (by decide)
    have e0 := hcombo 0
    have e1 := hcombo 1
    have e2 := hcombo 2
    rw [h0] at e0 e1 e2
    rw [Matrix.det_fin_three]
    simp only [Matrix.of_apply, Matrix.cons_val_zero, Matrix.cons_val_one, Matrix.head_cons,
      Matrix.cons_val_two, Matrix.tail_cons]
    rw [e0, e1, e2]
    ring
  have hbe : be ≠ 0 := by
    intro h0
    apply hpd 0 2 3 (by decide) (by decide) (by decide)
    have e0 := hcombo 0
    have e1 := hcombo 1
    have e2 := hcombo 2
    rw [h0] at e0 e1 e2
    rw [Matrix.det_fin_three]
    simp only [Matrix.of_apply, Matrix.cons_val_zero, Matrix.cons_val_one, Matrix.head_cons,
      Matrix.cons_val_two, Matrix.tail_cons]
    rw [e0, e1, e2]
    ring
  have hga : ga ≠ 0 := by
    intro h0
    apply hpd 0 1 3 (by decide) (by decide) (by decide)
    have e0 := hcombo 0
    have e1 := hcombo 1
    have e2 := hcombo 2
    rw [h0] at e0 e1 e2
    rw [Matrix.det_fin_three]
    simp only [Matrix.of_apply, Matrix.cons_val_zero, Matrix.cons_val_one, Matrix.head_cons,
      Matrix.cons_val_two, Matrix.tail_cons]
    rw [e0, e1, e2]
    ring
  set Pt : Matrix (Fin 3) (Fin 3) ℚ := (Matrix.of ![p 0, p 1, p 2]).transpose with hPt
  set w : Fin 3 → ℚ :=
    ![al * (lam 0 - lam 3), be * (lam 1 - lam 3), ga * (lam 2 - lam 3)] with hw
  have hPtw : Pt.mulVec w = 0 := by
    funext r
    have hA := congrFun (h 0) r
    have hB := congrFun (h 1) r
    have hC := congrFun (h 2) r
    have hD3 := congrFun (h 3) r
    simp only [Matrix.mulVec, Matrix.dotProduct, Fin.sum_univ_three, Pi.smul_apply,
      smul_eq_mul] at hA hB hC hD3
    have e0 := hcombo 0
    have e1 := hcombo 1
    have e2 := hcombo 2
    have er := hcombo r
    simp only [hPt, hw, Matrix.mulVec, Matrix.dotProduct, Fin.sum_univ_three,
      Matrix.transpose_apply, Matrix.of_apply, Matrix.cons_val_zero, Matrix.cons_val_one,
      Matrix.head_cons, Matrix.cons_val_two, Matrix.tail_cons, Pi.zero_apply]
    linear_combination (-al) * hA - be * hB - ga * hC + hD3 - D r 0 * e0 - D r 1 * e1 -
      D r 2 * e2 + lam 3 * er
  have hwz : w = 0 := by
    have hdT : IsUnit Pt.det := by
      rw [hPt, Matrix.det_transpose]
      exact isUnit_iff_ne_zero.2 (hpd 0 1 2 (by decide) (by decide) (by decide))
    calc w = Matrix.mulVec 1 w := (Matrix.one_mulVec w).symm
      _ = (Pt⁻¹ * Pt).mulVec w := by rw [Matrix.nonsing_inv_mul _ hdT]
      _ = Pt⁻¹.mulVec (Pt.mulVec w) := (Matrix.mulVec_mulVec w Pt⁻¹ Pt).symm
      _ = Pt⁻¹.mulVec 0 := by rw [hPtw]
      _ = 0 := Matrix.mulVec_zero _
  have hl0 : lam 0 = lam 3 := by
    have h0 := congrFun hwz 0
    simp only [hw, Matrix.cons_val_zero, Pi.zero_apply] at h0
    rcases mul_eq_zero.1 h0 with hc | hc
    · exact absurd hc hal
    · linarith [hc]
  have hl1 : lam 1 = lam 3 := by
    have h1 := congrFun hwz 1
    simp only [hw, Matrix.cons_val_one, Matrix.head_cons, Pi.zero_apply] at h1
    rcases mul_eq_zero.1 h1 with hc | hc
    · exact absurd hc hbe
    · linarith [hc]
  have hl2 : lam 2 = lam 3 := by
    have h2 := congrFun hwz 2
    simp only [hw, Matrix.cons_val_two, Matrix.tail_cons, Matrix.head_cons,
      Pi.zero_apply] at h2
    rcases mul_eq_zero.1 h2 with hc | hc
    · exact absurd hc hga
    · linarith [hc]
  have k0 : (D - lam 0 • 1).mulVec (p 0) = 0 := by
    rw [Matrix.sub_mulVec, h 0, Matrix.smul_mulVec_assoc, Matrix.one_mulVec, sub_self]
  have k1 : (D - lam 0 • 1).mulVec (p 1) = 0 := by
    rw [Matrix.sub_mulVec, h 1, Matrix.smul_mulVec_assoc, Matrix.one_mulVec, hl1, hl0,
      sub_self]
  have k2 : (D - lam 0 • 1).mulVec (p 2) = 0 := by
    rw [Matrix.sub_mulVec, h 2, Matrix.smul_mulVec_assoc, Matrix.one_mulVec, hl2, hl0,
      sub_self]
  have hzero :=
    eq_zero_of_ker3 (hpd 0 1 2 (by decide) (by decide) (by decide)) k0 k1 k2
  exact sub_eq_zero.1 hzero

/-- C4 (identity property): when the four correspondences are identical
(`inPts = outPts`, nondegenerate), the solver returns exactly the identity
projection `c00=1, c01=0, c02=0, c10=0, c11=1, c12=0, c20=0, c21=0, c22=1`,
and the homogeneous-division mapping through it is the identity on every
point. -/
theorem identity_correspondence {pts : Fin 4 → ℚ × ℚ} (hnd : Nondegenerate pts pts) :
    projectionMatrix pts pts = some idMat9 ∧
      ∀ x y : ℚ, mapPoint idMat9 x y = (x, y) := by
  have hcase8 : ∀ t : Fin 8, t = 0 ∨ t = 1 ∨ t = 2 ∨ t = 3 ∨ t = 4 ∨ t = 5 ∨ t = 6 ∨ t = 7 := by
    decide
  constructor
  · have hpd := noThreeCollinear_det hnd.1
    have hker : ∀ v, (buildU pts pts).mulVec v = 0 → v = 0 := by
      intro v hv
      have h0 := congrFun hv 0
      have h1 := congrFun hv 1
      have h2 := congrFun hv 2
      have h3 := congrFun hv 3
      have h4 := congrFun hv 4
      have h5 := congrFun hv 5
      have h6 := congrFun hv 6
      have h7 := congrFun hv 7
      simp only [buildU, Matrix.mulVec, Matrix.dotProduct, Fin.sum_univ_eight,
        Matrix.of_apply, Matrix.cons_val_zero, Matrix.cons_val_one, Matrix.head_cons,
        Matrix.cons_val_two, Matrix.tail_cons, Matrix.cons_val_three, Matrix.cons_val_four,
        vec8_at5, vec8_at6, vec8_at7, Pi.zero_apply] at h0 h1 h2 h3 h4 h5 h6 h7
      set D : Matrix (Fin 3) (Fin 3) ℚ :=
        Matrix.of ![![v 0, v 1, v 2], ![v 3, v 4, v 5], ![v 6, v 7, 0]] with hD
      have hDrel : ∀ i, D.mulVec (homog (pts i))
          = (v 6 * (pts i).1 + v 7 * (pts i).2) • homog (pts i) := by
        intro i
        funext r
        have hcase4 : ∀ t : Fin 4, t = 0 ∨ t = 1 ∨ t = 2 ∨ t = 3 := by decide
        have hcase3 : ∀ t : Fin 3, t = 0 ∨ t = 1 ∨ t = 2 := by decide
        rcases hcase4 i with rfl | rfl | rfl | rfl <;>
          rcases hcase3 r with rfl | rfl | rfl <;>
          · simp only [hD, homog, Matrix.mulVec, Matrix.dotProduct, Fin.sum_univ_three,
              Matrix.of_apply, Matrix.cons_val_zero, Matrix.cons_val_one, Matrix.head_cons,
              Matrix.cons_val_two, Matrix.tail_cons, Pi.smul_apply, smul_eq_mul]
            first
              | ring1
              | linear_combination h0
              | linear_combination h1
              | linear_combination h2
              | linear_combination h3
              | linear_combination h4
              | linear_combination h5
              | linear_combination h6
              | linear_combination h7
      have heig := eq_smul_one_of_eigen hpd hDrel
      have hlam : v 6 * (pts 0).1 + v 7 * (pts 0).2 = 0 := by
        have h22 := congrFun (congrFun heig 2) 2
        simp only [hD, Matrix.of_apply, Matrix.cons_val_zero, Matrix.cons_val_one,
          Matrix.head_cons, Matrix.cons_val_two, Matrix.tail_cons, Matrix.smul_apply,
          Matrix.one_apply, smul_eq_mul] at h22
        norm_num at h22
        linarith [h22]
      have hD0 : D = 0 := by
        rw [heig, hlam, zero_smul]
      have hent : ∀ a b : Fin 3, D a b = 0 := by
        intro a b
        rw [hD0]
        rfl
      funext i
      rcases hcase8 i with rfl | rfl | rfl | rfl | rfl | rfl | rfl | rfl
      · simpa [hD] using hent 0 0
      · simpa [hD] using hent 0 1
      · simpa [hD] using hent 0 2
      · simpa [hD] using hent 1 0
      · simpa [hD] using hent 1 1
      · simpa [hD] using hent 1 2
      · simpa [hD] using hent 2 0
      · simpa [hD] using hent 2 1
    have hsol : (buildU pts pts).mulVec idMat8 = buildB pts := by
      funext r
      rcases hcase8 r with rfl | rfl | rfl | rfl | rfl | rfl | rfl | rfl <;>
        · simp only [buildU, buildB, idMat8, Matrix.mulVec, Matrix.dotProduct,
            Fin.sum_univ_eight, Matrix.of_apply, Matrix.cons_val_zero, Matrix.cons_val_one,
            Matrix.head_cons, Matrix.cons_val_two, Matrix.tail_cons, Matrix.cons_val_three,
            Matrix.cons_val_four, vec8_at5, vec8_at6, vec8_at7]
          ring
    unfold projectionMatrix
    rw [lusolve_eq_some hker hsol, Option.map_some']
    exact congrArg some (by decide)
  · intro x y
    norm_num [mapPoint, idMat9]

/-- Witness for C4: on the unit square the solver returns the identity and
the identity matrix maps (5, 7) to itself. -/
theorem identity_correspondence_witness :
    projectionMatrix sqPts sqPts = some idMat9 ∧ mapPoint idMat9 5 7 = (5, 7) :=
  ⟨(identity_correspondence sq_nondeg).1, (identity_correspondence sq_nondeg).2 5 7⟩

/-- C5 (round trip): for a nondegenerate mapper whose forward matrix solves
`inPts → outPts` and whose inverse matrix is independently solved from the
swapped correspondences `outPts → inPts`, mapping any point of the source
region (any point where the forward denominator is nonzero) forward and then
back returns the point exactly (hence a fortiori approximately). -/
theorem round_trip {inPts outPts : Fin 4 → ℚ × ℚ} {m mi : Fin 9 → ℚ}
    (hnd : Nondegenerate inPts outPts)
    (hf : projectionMatrix inPts outPts = some m)
    (hb : projectionMatrix outPts inPts = some mi)
    (x y : ℚ) (hz : m 6 * x + m 7 * y + m 8 ≠ 0) :
    mapPoint mi (mapPoint m x y).1 (mapPoint m x y).2 = (x, y) := by
  have hndb : Nondegenerate outPts inPts := ⟨hnd.2, hnd.1⟩
  have hrelf := solve_mulVec hf
  have hrelb := solve_mulVec hb
  have hG : ∀ i, (Cmat mi * Cmat m).mulVec (homog (inPts i))
      = (zden m (inPts i) * zden mi (outPts i)) • homog (inPts i) := by
    intro i
    rw [← Matrix.mulVec_mulVec, hrelf i, Matrix.mulVec_smul, hrelb i, smul_smul]
  have heig := eq_smul_one_of_eigen (noThreeCollinear_det hnd.1) hG
  have hlam0 : zden m (inPts 0) * zden mi (outPts 0) ≠ 0 :=
    mul_ne_zero (solve_zden_ne_zero hnd hf 0) (solve_zden_ne_zero hndb hb 0)
  have hcomp : (Cmat mi).mulVec ((Cmat m).mulVec ![x, y, 1])
      = (zden m (inPts 0) * zden mi (outPts 0)) • ![x, y, 1] := by
    rw [Matrix.mulVec_mulVec, heig, Matrix.smul_mulVec_assoc, Matrix.one_mulVec]
  have E0 := congrFun hcomp 0
  have E1 := congrFun hcomp 1
  have E2 := congrFun hcomp 2
  simp only [Cmat, Matrix.mulVec, Matrix.dotProduct, Fin.sum_univ_three, Matrix.of_apply,
    Matrix.cons_val_zero, Matrix.cons_val_one, Matrix.head_cons, Matrix.cons_val_two,
    Matrix.tail_cons, Pi.smul_apply, smul_eq_mul] at E0 E1 E2
  have hden : mi 6 * ((m 0 * x + m 1 * y + m 2) / (m 6 * x + m 7 * y + m 8))
      + mi 7 * ((m 3 * x + m 4 * y + m 5) / (m 6 * x + m 7 * y + m 8)) + mi 8
      = zden m (inPts 0) * zden mi (outPts 0) / (m 6 * x + m 7 * y + m 8) := by
    field_simp
    linear_combination E2
  have hden_ne : mi 6 * ((m 0 * x + m 1 * y + m 2) / (m 6 * x + m 7 * y + m 8))
      + mi 7 * ((m 3 * x + m 4 * y + m 5) / (m 6 * x + m 7 * y + m 8)) + mi 8 ≠ 0 := by
    rw [hden]
    exact div_ne_zero hlam0 hz
  simp only [mapPoint]
  rw [Prod.mk.injEq]
  constructor
  · rw [div_eq_iff hden_ne, hden]
    field_simp
    linear_combination E0
  · rw [div_eq_iff hden_ne, hden]
    field_simp
    linear_combination E1

/-- Witness for C5: the identity mapper on the unit square round-trips the
interior point (1/2, 1/3). -/
theorem round_trip_witness :
    mapPoint idMat9 (mapPoint idMat9 (1/2) (1/3)).1 (mapPoint idMat9 (1/2) (1/3)).2
      = (1/2, 1/3) :=
  round_trip sq_nondeg solve_sq solve_sq (1/2) (1/3) (by norm_num [idMat9])

end Projection
